import Mathlib

/-!
Shallow embedding of `src/deduplicacao_assinatura.py`, a PySpark batch that
deduplicates person records by a derived identity fingerprint ("assinatura").

Strings are modelled as `List Char` at the algorithmic level, with `String`
wrappers where the source works on whole columns.  Python regexes are embedded
by their action on the character list (documented at each definition), Spark
SQL's three-valued logic is embedded with `Option` (`none` = NULL), and the
numeric columns (Spark floats) are embedded as exact rationals `ℚ`.
-/

namespace Dedup

/-! ### Character classes

`isWordChar` models the regex class `\w` (ASCII range) used by the word
boundary `\b`; `Char.isWhitespace` models `\s` and Python's `str.split()` /
`str.strip()` whitespace test; `Char.toLower` models `str.lower()` on the
basic latin range. -/

def isWordChar (c : Char) : Bool := c.isAlphanum || c == '_'

/-- The alternatives of the regex `\b(de|da|do|das|dos)\b` in
`normalize_nome` (Portuguese connector words). -/
def connectors : List (List Char) :=
  [['d', 'e'], ['d', 'a'], ['d', 'o'], ['d', 'a', 's'], ['d', 'o', 's']]

/-! ### `normalize_nome`

```python
def normalize_nome(nome):
    nome = nome.lower()
    nome = re.sub(r"\b(de|da|do|das|dos)\b", "", nome)
    nome = re.sub(r"\s+", " ", nome).strip()
    return nome
```

A match of `\b(de|da|do|das|dos)\b` is a maximal run of `\w`-characters that
equals one of the five alternatives (each alternative is all word characters,
and both `\b`s demand a non-word character or the string edge on each side;
`re.sub` removes every such non-overlapping match, scanning left to right).
`removeConn` embeds that action: it walks the character list accumulating the
current word-character run, and flushes each completed maximal run — dropped
when it is a connector, kept verbatim otherwise. -/

def flushRun (acc : List Char) : List Char :=
  if acc ∈ connectors then [] else acc

def removeConnAux : List Char → List Char → List Char
  | acc, [] => flushRun acc
  | acc, c :: cs =>
    if isWordChar c then removeConnAux (acc ++ [c]) cs
    else flushRun acc ++ c :: removeConnAux [] cs

def removeConn (l : List Char) : List Char := removeConnAux [] l

/-- `re.sub(r"\s+", " ", nome)`: every maximal run of whitespace becomes one
space.  The boolean records whether the previous character was whitespace
(i.e. whether we are inside a run that already emitted its space). -/
def collapseAux : Bool → List Char → List Char
  | _, [] => []
  | prevWs, c :: cs =>
    if c.isWhitespace then
      if prevWs then collapseAux true cs else ' ' :: collapseAux true cs
    else c :: collapseAux false cs

def collapseWs (l : List Char) : List Char := collapseAux false l

/-- Python `str.strip()`: drop leading and trailing whitespace. -/
def stripChars (l : List Char) : List Char :=
  (((l.dropWhile Char.isWhitespace).reverse.dropWhile Char.isWhitespace).reverse)

def normalize_nome (s : String) : String :=
  ⟨stripChars (collapseWs (removeConn (s.data.map Char.toLower)))⟩

/-! ### `extract_first_last`

```python
def extract_first_last(nome):
    partes = nome.strip().split()
    return partes[0], partes[-1] if len(partes) > 1 else (partes[0], partes[0])
```

Python operator precedence parses the returned expression as
`(partes[0], (partes[-1] if len(partes) > 1 else (partes[0], partes[0])))`,
so the second component is a *string* when the name has at least two tokens
and a *pair of strings* when it has exactly one; on an empty token list
`partes[0]` raises `IndexError`.  `PyVal` captures the two possible shapes of
the second component, and `Except Unit` captures the `IndexError`. -/

inductive PyVal where
  | str : String → PyVal
  | tup : PyVal → PyVal → PyVal
deriving DecidableEq

/-- Python `repr()` of a value that is an element of a displayed tuple:
strings are quoted (escaping inside the elements is not modelled; the strings
reaching it here never contain quotes or backslashes). -/
def PyVal.reprElem : PyVal → String
  | .str s => "'" ++ s ++ "'"
  | .tup a b => "(" ++ a.reprElem ++ ", " ++ b.reprElem ++ ")"

/-- Python `str()` of a value interpolated in an f-string: a string renders
as itself, a tuple as `repr`-quoted elements in parentheses. -/
def PyVal.format : PyVal → String
  | .str s => s
  | .tup a b => "(" ++ a.reprElem ++ ", " ++ b.reprElem ++ ")"

/-- Python `str.split()` with no separator: whitespace-delimited tokens,
empty tokens discarded.  The accumulator holds the token being read. -/
def pySplitAux : List Char → List Char → List (List Char)
  | acc, [] => if acc.isEmpty then [] else [acc]
  | acc, c :: cs =>
    if c.isWhitespace then
      if acc.isEmpty then pySplitAux [] cs else acc :: pySplitAux [] cs
    else pySplitAux (acc ++ [c]) cs

def pySplit (l : List Char) : List (List Char) := pySplitAux [] l

def extract_first_last (nome : String) : Except Unit (String × PyVal) :=
  let partes := pySplit (stripChars nome.data)
  match h : partes with
  | [] => .error ()
  | p :: rest =>
    if rest.length > 0 then
      .ok (⟨p⟩, .str ⟨(p :: rest).getLast (by simp)⟩)
    else
      .ok (⟨p⟩, .tup (.str ⟨p⟩) (.str ⟨p⟩))

/-! ### `gerar_assinatura`

```python
def gerar_assinatura(nome_aluno, data_nasc, nome_mae, sexo):
    nome_aluno = normalize_nome(nome_aluno or "")
    nome_mae = normalize_nome(nome_mae or "")
    pn_a, un_a = extract_first_last(nome_aluno)
    pn_m, un_m = extract_first_last(nome_mae)
    return f"{pn_a} {un_a} {data_nasc} {pn_m} {un_m} {sexo}"
```

The name fields are nullable (`Option String`, with `x or ""` as `getD ""`);
the unpacking `pn_a, un_a = ...` binds `un_a` to whatever the second tuple
component is (string or nested tuple), and the f-string renders it with
`PyVal.format`. -/

def gerar_assinatura (nome_aluno : Option String) (data_nasc : String)
    (nome_mae : Option String) (sexo : String) : Except Unit String := do
  let na := normalize_nome (nome_aluno.getD "")
  let nm := normalize_nome (nome_mae.getD "")
  let (pn_a, un_a) ← extract_first_last na
  let (pn_m, un_m) ← extract_first_last nm
  return pn_a ++ " " ++ un_a.format ++ " " ++ data_nasc ++ " " ++
    pn_m ++ " " ++ un_m.format ++ " " ++ sexo

/-! ### Similarity scoring

```python
@udf(FloatType())
def jaccard_udf(str1, str2):
    set1 = set(str1.split()); set2 = set(str2.split())
    inter = len(set1 & set2); union = len(set1 | set2)
    return float(inter) / union if union != 0 else 0.0
```

and, on the joined dataframe,

```python
.withColumn("lev_dist", levenshtein(col("a.assinatura"), col("b.assinatura")).cast("float"))
.withColumn("len_max", when(length(a) > length(b), length(a)).otherwise(length(b)))
.withColumn("lev_score", 1 - (col("lev_dist") / col("len_max")))
.withColumn("score_final", 0.75 * col("jaccard") + 0.25 * col("lev_score"))
```

Spark SQL division by zero yields NULL, and every arithmetic operation on
NULL yields NULL; `Option ℚ` embeds that (floats are embedded as exact
rationals). -/

/-- Classic unit-cost Levenshtein edit distance (Spark's `levenshtein`
column function) on character lists. -/
def levList : List Char → List Char → ℕ
  | [], t => t.length
  | a :: s, [] => (a :: s).length
  | a :: s, b :: t =>
    if a = b then levList s t
    else 1 + min (levList s (b :: t)) (min (levList (a :: s) t) (levList s t))
termination_by s t => s.length + t.length
decreasing_by all_goals simp_arith

def levenshtein (s t : String) : ℕ := levList s.data t.data

def jaccard (str1 str2 : String) : ℚ :=
  let set1 := (pySplit str1.data).toFinset
  let set2 := (pySplit str2.data).toFinset
  let inter := (set1 ∩ set2).card
  let union := (set1 ∪ set2).card
  if union ≠ 0 then (inter : ℚ) / union else 0

/-- Spark `length` of the longer fingerprint (`when(len a > len b, len a)
.otherwise(len b)`). -/
def len_max (s1 s2 : String) : ℕ :=
  if s1.length > s2.length then s1.length else s2.length

/-- Spark SQL division: NULL on a zero divisor. -/
def sparkDiv (a b : ℚ) : Option ℚ := if b = 0 then none else some (a / b)

/-- `lev_score = 1 - lev_dist / len_max`, NULL when `len_max` is zero. -/
def lev_score (s1 s2 : String) : Option ℚ :=
  (sparkDiv (levenshtein s1 s2) (len_max s1 s2)).map (fun q => 1 - q)

/-- `score_final = 0.75 * jaccard + 0.25 * lev_score` (NULL propagates). -/
def score_final (s1 s2 : String) : Option ℚ :=
  (lev_score s1 s2).map (fun e => 0.75 * jaccard s1 s2 + 0.25 * e)

/-! ### Classifier

```python
df_resultado = df_joined.withColumn("status_final",
    when(col("a.cpf").isNull(), "Q001")
    .when(col("score_final") >= 0.75, "OK")
    .when(col("score_final") < 0.60, "Q002")
    .when((col("a.data_nasc") != col("b.data_nasc")) & (col("a.sexo") != col("b.sexo")), "Q006")
    .otherwise("VALIDAR_NOMES")
)
```

A `when` chain takes the first branch whose condition is *true*; a NULL
condition (e.g. a comparison against a NULL `score_final`) is not true and
falls through. -/

/-- Spark `col >= lit`: false (not taken) when the column is NULL. -/
def sqlGe (x : Option ℚ) (c : ℚ) : Bool :=
  match x with
  | none => false
  | some v => c ≤ v

/-- Spark `col < lit`: false (not taken) when the column is NULL. -/
def sqlLt (x : Option ℚ) (c : ℚ) : Bool :=
  match x with
  | none => false
  | some v => v < c

def status_final (cpf_a : Option String) (score : Option ℚ)
    (nasc_a nasc_b sexo_a sexo_b : String) : String :=
  if cpf_a.isNone then "Q001"
  else if sqlGe score 0.75 then "OK"
  else if sqlLt score 0.60 then "Q002"
  else if nasc_a ≠ nasc_b ∧ sexo_a ≠ sexo_b then "Q006"
  else "VALIDAR_NOMES"

/-! ### The dataframe pipeline

The source dataframe `df` carries the record columns together with the
`assinatura` column (line 46 of the script adds it with `assinatura_udf`).
A dataframe is embedded as a list of rows; Spark SQL equality on nullable
columns (`Option`) is three-valued, and a NULL comparison never satisfies a
join predicate or a filter. -/

structure Registro where
  id : ℤ
  cpf : Option String
  nome : Option String
  data_nasc : String
  nome_mae : Option String
  sexo : String
  assinatura : String
deriving DecidableEq

/-- Spark `colA == colB` for nullable string columns: only a true comparison
of two non-NULL values satisfies the predicate. -/
def sqlEqOpt (a b : Option String) : Bool :=
  match a, b with
  | some x, some y => x = y
  | _, _ => false

/--
```python
df_joined = df.alias("a").join(df.alias("b"),
    (col("a.cpf") == col("b.cpf")) &
    (col("a.id") < col("b.id")) &
    (col("a.assinatura") != col("b.assinatura")))
```
A self-join is the cross product filtered by the join predicate. -/
def df_joined (df : List Registro) : List (Registro × Registro) :=
  (df.product df).filter fun p =>
    sqlEqOpt p.1.cpf p.2.cpf && p.1.id < p.2.id && p.1.assinatura ≠ p.2.assinatura

/-- The columns selected into `df_resultado`. -/
structure ResRow where
  id_a : ℤ
  id_b : ℤ
  cpf : Option String
  score_final : Option ℚ
  status_final : String
deriving DecidableEq

def df_resultado (df : List Registro) : List ResRow :=
  (df_joined df).map fun p =>
    { id_a := p.1.id
      id_b := p.2.id
      cpf := p.1.cpf
      score_final := score_final p.1.assinatura p.2.assinatura
      status_final := status_final p.1.cpf (score_final p.1.assinatura p.2.assinatura)
        p.1.data_nasc p.2.data_nasc p.1.sexo p.2.sexo }

/-- `col("status_final").startswith("Q")`. -/
def startsWithQ (s : String) : Bool :=
  match s.data with
  | [] => false
  | c :: _ => c = 'Q'

/-- `df_ingestao = df_resultado.filter(col("status_final") == "OK")` (the
pair part of the ingestion set, before unique records are unioned in). -/
def df_ingestao (df : List Registro) : List ResRow :=
  (df_resultado df).filter fun r => r.status_final = "OK"

/-- `df_log = df_resultado.filter(col("status_final").startswith("Q"))`. -/
def df_log (df : List Registro) : List ResRow :=
  (df_resultado df).filter fun r => startsWithQ r.status_final

/-- `cpfs_duplicados = df_resultado.select("cpf").distinct()`. -/
def cpfs_duplicados (df : List Registro) : List (Option String) :=
  ((df_resultado df).map (fun r => r.cpf)).dedup

/-- `df_unicos = df.join(cpfs_duplicados, on="cpf", how="left_anti")`: keep
the records of `df` whose `cpf` matches (with SQL equality) no key in
`cpfs_duplicados`. -/
def df_unicos (df : List Registro) : List Registro :=
  df.filter fun r => !((cpfs_duplicados df).any fun k => sqlEqOpt r.cpf k)

/-- The column names of `df_resultado` after the `select` (and hence of
`df_ingestao`), and of the source dataframe `df` (hence of `df_unicos`). -/
def resultadoColumns : List String :=
  ["id_a", "id_b", "cpf", "score_final", "status_final"]

def registroColumns : List String :=
  ["id", "cpf", "nome", "data_nasc", "nome_mae", "sexo", "assinatura"]

/-- Spark `df1.unionByName(df2)` without `allowMissingColumns`: columns are
resolved by name, and unless the two column sets coincide the call raises
`AnalysisException`; only when they match does it return the combined
rows. -/
def unionByName {α β : Type} (cols1 cols2 : List String)
    (rows1 : List α) (rows2 : List β) : Except Unit (List (α ⊕ β)) :=
  if cols1.all (· ∈ cols2) && cols2.all (· ∈ cols1) then
    .ok (rows1.map .inl ++ rows2.map .inr)
  else
    .error ()

/-- `df_ingestao = df_ingestao.unionByName(df_unicos)`: the pair rows carry
the five selected columns, the unique records the seven source columns, so
the by-name resolution fails and the union raises. -/
def df_ingestao_final (df : List Registro) :
    Except Unit (List (ResRow ⊕ Registro)) :=
  unionByName resultadoColumns registroColumns (df_ingestao df) (df_unicos df)

/-! ### Proof-side predicates for the normalizer

`noConnAux acc l` states that, continuing from a pending word run `acc`, no
completed maximal word run is a connector — it mirrors the recursion of
`removeConnAux`.  `wsOk` states that every whitespace character is a single
space not followed by more whitespace — the shape `collapseAux` produces.
`headNotWs` guards the leading position for `stripChars`. -/

def noConnAux : List Char → List Char → Prop
  | acc, [] => acc ∉ connectors
  | acc, c :: cs =>
    if isWordChar c then noConnAux (acc ++ [c]) cs
    else acc ∉ connectors ∧ noConnAux [] cs

def noConn (l : List Char) : Prop := noConnAux [] l

def headNotWs : List Char → Prop
  | [] => True
  | c :: _ => c.isWhitespace = false

def wsOk : List Char → Prop
  | [] => True
  | c :: cs => (c.isWhitespace = true → c = ' ' ∧ headNotWs cs) ∧ wsOk cs

/-! ## General lemmas about the embedded functions -/

theorem length_dropWhile_cons_lt (p : Char → Bool) {c : Char} (cs : List Char)
    (h : p c = true) : ((c :: cs).dropWhile p).length < (c :: cs).length := by
  simp only [List.dropWhile_cons_of_pos h]
  exact Nat.lt_succ_of_le (List.dropWhile_sublist p).length_le

theorem ws_not_word {c : Char} (h : c.isWhitespace = true) : isWordChar c = false := by
  simp only [Char.isWhitespace, Bool.or_eq_true, decide_eq_true_eq] at h
  rcases h with ((h | h) | h) | h <;> subst h <;> decide

theorem word_not_ws {c : Char} (h : isWordChar c = true) : c.isWhitespace = false := by
  by_cases hw : c.isWhitespace = true
  · rw [ws_not_word hw] at h
    cases h
  · simpa using hw

theorem toNat_ofNat_small (n : Nat) (h : n < 55296) : (Char.ofNat n).toNat = n := by
  have hv : Nat.isValidChar n := Or.inl h
  simp [Char.ofNat, hv, Char.ofNatAux, Char.toNat]
  rfl

theorem toLower_idem (c : Char) : c.toLower.toLower = c.toLower := by
  unfold Char.toLower
  by_cases h : c.toNat ≥ 65 ∧ c.toNat ≤ 90
  · rw [if_pos h]
    have h32 : (Char.ofNat (c.toNat + 32)).toNat = c.toNat + 32 :=
      toNat_ofNat_small _ (by omega)
    rw [if_neg (by omega)]
  · rw [if_neg h, if_neg h]

theorem string_eq_empty_of_length {s : String} (h : s.length = 0) : s = "" := by
  apply String.ext
  have h0 : s.data.length = 0 := h
  simpa using List.length_eq_zero.mp h0

theorem len_max_pos_of_ne {s1 s2 : String} (h : s1 ≠ s2) : 0 < len_max s1 s2 := by
  rcases Nat.eq_zero_or_pos (len_max s1 s2) with hz | hp
  · exfalso
    have h1 : s1.length = 0 ∧ s2.length = 0 := by
      unfold len_max at hz
      split at hz <;> omega
    exact h (by rw [string_eq_empty_of_length h1.1, string_eq_empty_of_length h1.2])
  · exact hp

/-- The Levenshtein distance is at most the longer length: substituting the
first `min` characters and inserting or deleting the remaining ones is an
edit script of that cost (the recursion only ever needs its third branch). -/
theorem levList_le_max (s : List Char) :
    ∀ t : List Char, levList s t ≤ max s.length t.length := by
  induction s with
  | nil => intro t; simp [levList]
  | cons a s ih =>
    intro t
    induction t with
    | nil => simp [levList]
    | cons b t iht =>
      by_cases hab : a = b
      · have h3 : levList s t ≤ max s.length t.length := ih t
        simp only [levList, if_pos hab, List.length_cons]
        omega
      · have h3 : levList s t ≤ max s.length t.length := ih t
        have hmin :
            min (levList s (b :: t)) (min (levList (a :: s) t) (levList s t)) ≤
              levList s t :=
          le_trans (min_le_right _ _) (min_le_right _ _)
        simp only [levList, if_neg hab, List.length_cons]
        omega

theorem levenshtein_le_len_max (s1 s2 : String) : levenshtein s1 s2 ≤ len_max s1 s2 := by
  have hb : levList s1.data s2.data ≤ max s1.data.length s2.data.length := levList_le_max _ _
  unfold levenshtein len_max
  simp only [String.length] at *
  rcases max_cases s1.data.length s2.data.length with ⟨he, _⟩ | ⟨he, _⟩ <;> rw [he] at hb <;>
    split <;> omega

theorem jaccard_mem (s1 s2 : String) : 0 ≤ jaccard s1 s2 ∧ jaccard s1 s2 ≤ 1 := by
  simp only [jaccard]
  split
  · rename_i h
    have hsub : ((pySplit s1.data).toFinset ∩ (pySplit s2.data).toFinset).card ≤
        ((pySplit s1.data).toFinset ∪ (pySplit s2.data).toFinset).card :=
      Finset.card_le_card Finset.inter_subset_union
    have hpos : (0 : ℚ) < ((pySplit s1.data).toFinset ∪ (pySplit s2.data).toFinset).card := by
      exact_mod_cast Nat.pos_of_ne_zero h
    constructor
    · positivity
    · rw [div_le_one hpos]
      exact_mod_cast hsub
  · norm_num

theorem lev_score_eq {s1 s2 : String} (h : 0 < len_max s1 s2) :
    lev_score s1 s2 = some (1 - (levenshtein s1 s2 : ℚ) / (len_max s1 s2)) := by
  unfold lev_score sparkDiv
  rw [if_neg (by exact_mod_cast h.ne')]
  simp

theorem sqlEqOpt_iff (x y : Option String) :
    sqlEqOpt x y = true ↔ ∃ k, x = some k ∧ y = some k := by
  cases x <;> cases y <;> simp [sqlEqOpt]
  exact eq_comm

/-- The classifier only ever produces the five status codes. -/
theorem status_final_range (cpf : Option String) (score : Option ℚ)
    (na nb sa sb : String) :
    status_final cpf score na nb sa sb ∈
      (["Q001", "OK", "Q002", "Q006", "VALIDAR_NOMES"] : List String) := by
  unfold status_final
  split_ifs <;> simp

theorem status_final_ne_Q001 (k : String) (score : Option ℚ) (na nb sa sb : String) :
    status_final (some k) score na nb sa sb ≠ "Q001" := by
  unfold status_final
  split_ifs <;> simp_all

/-- Membership in the self-join `df_joined`: both rows come from `df`, their
`cpf`s are non-NULL and equal, the ids ascend, and the fingerprints differ. -/
theorem mem_df_joined (df : List Registro) (a b : Registro) :
    (a, b) ∈ df_joined df ↔
      a ∈ df ∧ b ∈ df ∧ (∃ k, a.cpf = some k ∧ b.cpf = some k) ∧ a.id < b.id ∧
        a.assinatura ≠ b.assinatura := by
  unfold df_joined
  rw [List.mem_filter, List.pair_mem_product]
  simp only [Bool.and_eq_true, decide_eq_true_eq, sqlEqOpt_iff]
  tauto

theorem mem_df_resultado (df : List Registro) (r : ResRow) :
    r ∈ df_resultado df ↔ ∃ p, p ∈ df_joined df ∧
      r = { id_a := p.1.id
            id_b := p.2.id
            cpf := p.1.cpf
            score_final := score_final p.1.assinatura p.2.assinatura
            status_final := status_final p.1.cpf (score_final p.1.assinatura p.2.assinatura)
              p.1.data_nasc p.2.data_nasc p.1.sexo p.2.sexo } := by
  unfold df_resultado
  rw [List.mem_map]
  constructor
  · rintro ⟨p, hp, rfl⟩
    exact ⟨p, hp, rfl⟩
  · rintro ⟨p, hp, rfl⟩
    exact ⟨p, hp, rfl⟩

theorem mem_df_resultado_range (df : List Registro) (r : ResRow)
    (h : r ∈ df_resultado df) :
    r.status_final ∈ (["Q001", "OK", "Q002", "Q006", "VALIDAR_NOMES"] : List String) := by
  obtain ⟨p, _, rfl⟩ := (mem_df_resultado df r).mp h
  exact status_final_range _ _ _ _ _ _

theorem mem_cpfs_duplicados (df : List Registro) (k : Option String) :
    k ∈ cpfs_duplicados df ↔ ∃ p, p ∈ df_joined df ∧ p.1.cpf = k := by
  unfold cpfs_duplicados
  rw [List.mem_dedup, List.mem_map]
  constructor
  · rintro ⟨row, hrow, rfl⟩
    obtain ⟨p, hp, rfl⟩ := (mem_df_resultado df row).mp hrow
    exact ⟨p, hp, rfl⟩
  · rintro ⟨p, hp, rfl⟩
    exact ⟨_, (mem_df_resultado df _).mpr ⟨p, hp, rfl⟩, rfl⟩

/-! ### Lemmas for the normalizer (claim C8) -/

theorem head_dropWhile_false (p : Char → Bool) (l : List Char) :
    ∀ {c : Char} {cs : List Char}, l.dropWhile p = c :: cs → p c = false := by
  induction l with
  | nil => intro c cs h; cases h
  | cons x l ih =>
    intro c cs h
    by_cases hx : p x = true
    · rw [List.dropWhile_cons_of_pos hx] at h
      exact ih h
    · rw [List.dropWhile_cons_of_neg hx] at h
      cases h
      simpa using hx

theorem flushRun_nil : flushRun [] = [] := rfl

theorem noConn_nil : noConn [] := by
  simp [noConn, noConnAux, connectors]

theorem nil_not_connector : ([] : List Char) ∉ connectors := by decide

theorem noConnAux_append_word (v : List Char) :
    ∀ (acc w : List Char), (∀ c ∈ v, isWordChar c = true) →
      (noConnAux acc (v ++ w) ↔ noConnAux (acc ++ v) w) := by
  induction v with
  | nil => simp
  | cons x v ih =>
    intro acc w hall
    have hx : isWordChar x = true := hall x (by simp)
    simp only [List.cons_append, noConnAux, if_pos hx, List.append_eq]
    rw [ih (acc ++ [x]) w (fun c hc => hall c (by simp [hc]))]
    simp

theorem removeConnAux_append_word (v : List Char) :
    ∀ (acc w : List Char), (∀ c ∈ v, isWordChar c = true) →
      removeConnAux acc (v ++ w) = removeConnAux (acc ++ v) w := by
  induction v with
  | nil => simp
  | cons x v ih =>
    intro acc w hall
    have hx : isWordChar x = true := hall x (by simp)
    simp only [List.cons_append, removeConnAux, if_pos hx, List.append_eq]
    rw [ih (acc ++ [x]) w (fun c hc => hall c (by simp [hc]))]
    simp

theorem removeConn_nonword {c : Char} {cs : List Char} (h : isWordChar c = false) :
    removeConn (c :: cs) = c :: removeConn cs := by
  simp [removeConn, removeConnAux, h, flushRun_nil]

theorem noConn_nonword {c : Char} {cs : List Char} (h : isWordChar c = false) :
    noConn (c :: cs) ↔ noConn cs := by
  simp [noConn, noConnAux, h, nil_not_connector]

theorem removeConn_word_step {c : Char} {cs : List Char} (_h : isWordChar c = true) :
    removeConn (c :: cs) =
      flushRun ((c :: cs).takeWhile isWordChar) ++
        removeConn ((c :: cs).dropWhile isWordChar) := by
  have hall : ∀ d ∈ (c :: cs).takeWhile isWordChar, isWordChar d = true :=
    fun d hd => List.mem_takeWhile_imp hd
  conv_lhs => rw [removeConn, ← List.takeWhile_append_dropWhile (p := isWordChar) (l := c :: cs)]
  rw [removeConnAux_append_word _ _ _ hall, List.nil_append]
  cases hd : (c :: cs).dropWhile isWordChar with
  | nil => simp [removeConnAux, removeConn, flushRun_nil]
  | cons d ds =>
    have hdw : isWordChar d = false := head_dropWhile_false _ _ hd
    simp [removeConnAux, hdw, removeConn, flushRun_nil]

theorem noConn_word_step {c : Char} {cs : List Char} (_h : isWordChar c = true) :
    noConn (c :: cs) ↔
      ((c :: cs).takeWhile isWordChar ∉ connectors ∧
        noConn ((c :: cs).dropWhile isWordChar)) := by
  have hall : ∀ d ∈ (c :: cs).takeWhile isWordChar, isWordChar d = true :=
    fun d hd => List.mem_takeWhile_imp hd
  conv_lhs => rw [noConn, ← List.takeWhile_append_dropWhile (p := isWordChar) (l := c :: cs)]
  rw [noConnAux_append_word _ _ _ hall, List.nil_append]
  cases hd : (c :: cs).dropWhile isWordChar with
  | nil => simp [noConnAux, noConn, nil_not_connector]
  | cons d ds =>
    have hdw : isWordChar d = false := head_dropWhile_false _ _ hd
    simp [noConnAux, hdw, noConn, nil_not_connector]

theorem noConn_word_prepend {run w : List Char}
    (hall : ∀ c ∈ run, isWordChar c = true) (hrun : run ∉ connectors)
    (hw : ∀ d ds, w = d :: ds → isWordChar d = false) (hn : noConn w) :
    noConn (run ++ w) := by
  rw [noConn, noConnAux_append_word _ _ _ hall, List.nil_append]
  cases w with
  | nil => exact hrun
  | cons d ds =>
    have hdw : isWordChar d = false := hw d ds rfl
    rw [noConn, noConnAux] at hn
    simp only [hdw] at hn
    simp only [noConnAux, hdw, if_neg]
    exact ⟨hrun, hn.2⟩

theorem removeConn_nil : removeConn ([] : List Char) = [] := rfl

theorem removeConn_head_nonword {w : List Char}
    (hw : ∀ d ds, w = d :: ds → isWordChar d = false) :
    ∀ d ds, removeConn w = d :: ds → isWordChar d = false := by
  cases w with
  | nil => intro d ds h; cases h
  | cons x xs =>
    have hx : isWordChar x = false := hw x xs rfl
    intro d ds h
    rw [removeConn_nonword hx] at h
    cases h
    exact hx

theorem noConn_removeConn_fuel (n : ℕ) :
    ∀ l : List Char, l.length ≤ n → noConn (removeConn l) := by
  induction n with
  | zero =>
    intro l hl
    rw [List.length_eq_zero.mp (Nat.le_zero.mp hl)]
    exact noConn_nil
  | succ n ih =>
    intro l hl
    cases l with
    | nil => exact noConn_nil
    | cons c cs =>
      by_cases hw : isWordChar c = true
      · rw [removeConn_word_step hw]
        have hrest : ((c :: cs).dropWhile isWordChar).length ≤ n := by
          have := length_dropWhile_cons_lt isWordChar cs hw
          simp only [List.length_cons] at this hl
          omega
        have hdrop : ∀ d ds, (c :: cs).dropWhile isWordChar = d :: ds →
            isWordChar d = false := fun d ds hd => head_dropWhile_false _ _ hd
        by_cases hmem : (c :: cs).takeWhile isWordChar ∈ connectors
        · rw [flushRun, if_pos hmem, List.nil_append]
          exact ih _ hrest
        · rw [flushRun, if_neg hmem]
          exact noConn_word_prepend (fun d hd => List.mem_takeWhile_imp hd) hmem
            (removeConn_head_nonword hdrop) (ih _ hrest)
      · rw [removeConn_nonword (by simpa using hw)]
        rw [noConn_nonword (by simpa using hw)]
        exact ih cs (by simpa using Nat.le_of_succ_le_succ (by simpa using hl))

theorem noConn_removeConn (l : List Char) : noConn (removeConn l) :=
  noConn_removeConn_fuel l.length l le_rfl

theorem removeConn_eq_self_fuel (n : ℕ) :
    ∀ l : List Char, l.length ≤ n → noConn l → removeConn l = l := by
  induction n with
  | zero =>
    intro l hl _
    rw [List.length_eq_zero.mp (Nat.le_zero.mp hl)]
    rfl
  | succ n ih =>
    intro l hl hc
    cases l with
    | nil => rfl
    | cons c cs =>
      by_cases hw : isWordChar c = true
      · rw [removeConn_word_step hw]
        obtain ⟨hmem, hrest⟩ := (noConn_word_step hw).mp hc
        have hlen : ((c :: cs).dropWhile isWordChar).length ≤ n := by
          have := length_dropWhile_cons_lt isWordChar cs hw
          simp only [List.length_cons] at this hl
          omega
        rw [flushRun, if_neg hmem, ih _ hlen hrest]
        exact List.takeWhile_append_dropWhile _ _
      · have hw' : isWordChar c = false := by simpa using hw
        rw [removeConn_nonword hw']
        rw [noConn_nonword hw'] at hc
        rw [ih cs (by simpa using Nat.le_of_succ_le_succ (by simpa using hl)) hc]

theorem removeConn_eq_self {l : List Char} (h : noConn l) : removeConn l = l :=
  removeConn_eq_self_fuel l.length l le_rfl h

theorem collapseAux_cons_nonws {c : Char} (h : c.isWhitespace = false)
    (b : Bool) (cs : List Char) :
    collapseAux b (c :: cs) = c :: collapseAux false cs := by
  cases b <;> simp [collapseAux, h]

theorem collapseAux_cons_ws_false {c : Char} (h : c.isWhitespace = true) (cs : List Char) :
    collapseAux false (c :: cs) = ' ' :: collapseAux true cs := by
  simp [collapseAux, h]

theorem collapseAux_cons_ws_true {c : Char} (h : c.isWhitespace = true) (cs : List Char) :
    collapseAux true (c :: cs) = collapseAux true cs := by
  simp [collapseAux, h]

theorem collapseAux_word_append {v : List Char} (hne : v ≠ [])
    (hall : ∀ c ∈ v, isWordChar c = true) :
    ∀ (w : List Char) (b : Bool), collapseAux b (v ++ w) = v ++ collapseAux false w := by
  induction v with
  | nil => exact absurd rfl hne
  | cons x v ih =>
    intro w b
    have hx : x.isWhitespace = false := word_not_ws (hall x (by simp))
    cases v with
    | nil => simp [collapseAux_cons_nonws hx]
    | cons y v' =>
      rw [List.cons_append, collapseAux_cons_nonws hx]
      rw [ih (by simp) (fun c hc => hall c (by simp [hc])) w false]
      rfl

theorem collapseAux_false_head_nonword {w : List Char}
    (hw : ∀ d ds, w = d :: ds → isWordChar d = false) :
    ∀ d ds, collapseAux false w = d :: ds → isWordChar d = false := by
  cases w with
  | nil => intro d ds h; cases h
  | cons x xs =>
    have hx : isWordChar x = false := hw x xs rfl
    intro d ds h
    by_cases hws : x.isWhitespace = true
    · rw [collapseAux_cons_ws_false hws] at h
      obtain ⟨rfl, -⟩ := List.cons.inj h
      decide
    · rw [collapseAux_cons_nonws (by simpa using hws)] at h
      obtain ⟨rfl, -⟩ := List.cons.inj h
      exact hx

theorem noConn_dropWhile_ws {l : List Char} (h : noConn l) :
    noConn (l.dropWhile Char.isWhitespace) := by
  induction l with
  | nil => exact h
  | cons c cs ih =>
    by_cases hws : c.isWhitespace = true
    · rw [List.dropWhile_cons_of_pos hws]
      exact ih ((noConn_nonword (ws_not_word hws)).mp h)
    · rwa [List.dropWhile_cons_of_neg (by simpa using hws)]

theorem noConn_collapseAux_fuel (n : ℕ) :
    ∀ (l : List Char) (b : Bool), l.length ≤ n → noConn l → noConn (collapseAux b l) := by
  induction n with
  | zero =>
    intro l b hl _
    rw [List.length_eq_zero.mp (Nat.le_zero.mp hl)]
    exact noConn_nil
  | succ n ih =>
    intro l b hl hc
    cases l with
    | nil => exact noConn_nil
    | cons c cs =>
      by_cases hw : isWordChar c = true
      · have hx : c.isWhitespace = false := word_not_ws hw
        rw [← List.takeWhile_append_dropWhile (p := isWordChar) (l := c :: cs)]
        rw [collapseAux_word_append (by simp [List.takeWhile_cons_of_pos hw])
          (fun d hd => List.mem_takeWhile_imp hd)]
        obtain ⟨hmem, hrest⟩ := (noConn_word_step hw).mp hc
        have hlen : ((c :: cs).dropWhile isWordChar).length ≤ n := by
          have := length_dropWhile_cons_lt isWordChar cs hw
          simp only [List.length_cons] at this hl
          omega
        exact noConn_word_prepend (fun d hd => List.mem_takeWhile_imp hd) hmem
          (collapseAux_false_head_nonword
            (fun d ds hd => head_dropWhile_false _ _ hd))
          (ih _ false hlen hrest)
      · have hw' : isWordChar c = false := by simpa using hw
        have hcs : noConn cs := (noConn_nonword hw').mp hc
        have hlen : cs.length ≤ n := by simpa using Nat.le_of_succ_le_succ (by simpa using hl)
        by_cases hws : c.isWhitespace = true
        · cases b with
          | true =>
            rw [collapseAux_cons_ws_true hws]
            exact ih cs true hlen hcs
          | false =>
            rw [collapseAux_cons_ws_false hws]
            exact (noConn_nonword (by decide)).mpr (ih cs true hlen hcs)
        · rw [collapseAux_cons_nonws (by simpa using hws)]
          exact (noConn_nonword hw').mpr (ih cs false hlen hcs)

theorem noConn_collapseWs {l : List Char} (h : noConn l) : noConn (collapseWs l) :=
  noConn_collapseAux_fuel l.length l false le_rfl h

theorem noConn_append_ws_right_fuel (n : ℕ) :
    ∀ (x t : List Char), x.length ≤ n → (∀ c ∈ t, c.isWhitespace = true) →
      noConn (x ++ t) → noConn x := by
  induction n with
  | zero =>
    intro x t hl _ _
    rw [List.length_eq_zero.mp (Nat.le_zero.mp hl)]
    exact noConn_nil
  | succ n ih =>
    intro x t hl ht hc
    cases x with
    | nil => exact noConn_nil
    | cons c cs =>
      by_cases hw : isWordChar c = true
      · have hallrun : ∀ d ∈ (c :: cs).takeWhile isWordChar, isWordChar d = true :=
          fun d hd => List.mem_takeWhile_imp hd
        have hx : (c :: cs) ++ t =
            (c :: cs).takeWhile isWordChar ++ ((c :: cs).dropWhile isWordChar ++ t) := by
          rw [← List.append_assoc, List.takeWhile_append_dropWhile]
        rw [noConn, hx, noConnAux_append_word _ _ _ hallrun, List.nil_append] at hc
        rw [noConn_word_step hw]
        cases hdrest : (c :: cs).dropWhile isWordChar with
        | nil =>
          rw [hdrest, List.nil_append] at hc
          have hmem : (c :: cs).takeWhile isWordChar ∉ connectors := by
            cases t with
            | nil => exact hc
            | cons d ds =>
              have hd : isWordChar d = false := ws_not_word (ht d (by simp))
              rw [noConnAux] at hc
              simp only [hd] at hc
              exact hc.1
          exact ⟨hmem, noConn_nil⟩
        | cons d ds =>
          have hd : isWordChar d = false := head_dropWhile_false _ _ hdrest
          rw [hdrest, List.cons_append, noConnAux] at hc
          simp only [hd] at hc
          obtain ⟨hmem, hnext⟩ := hc
          have hlend : ds.length ≤ n := by
            have h1 := length_dropWhile_cons_lt isWordChar cs hw
            rw [hdrest] at h1
            simp only [List.length_cons] at h1 hl
            omega
          have hds : noConn ds := ih ds t hlend ht hnext
          exact ⟨hmem, (noConn_nonword hd).mpr hds⟩
      · have hw' : isWordChar c = false := by simpa using hw
        rw [List.cons_append, noConn_nonword hw'] at hc
        have hcs : noConn cs :=
          ih cs t (by simpa using Nat.le_of_succ_le_succ (by simpa using hl)) ht hc
        exact (noConn_nonword hw').mpr hcs

theorem noConn_append_ws_right {x t : List Char}
    (ht : ∀ c ∈ t, c.isWhitespace = true) (hc : noConn (x ++ t)) : noConn x :=
  noConn_append_ws_right_fuel x.length x t le_rfl ht hc

theorem headNotWs_collapseAux_true : ∀ cs : List Char, headNotWs (collapseAux true cs) := by
  intro cs
  induction cs with
  | nil => trivial
  | cons c cs ih =>
    by_cases hws : c.isWhitespace = true
    · rwa [collapseAux_cons_ws_true hws]
    · rw [collapseAux_cons_nonws (by simpa using hws)]
      simpa [headNotWs] using hws

theorem wsOk_collapseAux : ∀ (l : List Char) (b : Bool), wsOk (collapseAux b l) := by
  intro l
  induction l with
  | nil => intro b; trivial
  | cons c cs ih =>
    intro b
    by_cases hws : c.isWhitespace = true
    · cases b with
      | true =>
        rw [collapseAux_cons_ws_true hws]
        exact ih true
      | false =>
        rw [collapseAux_cons_ws_false hws]
        exact ⟨fun _ => ⟨rfl, headNotWs_collapseAux_true cs⟩, ih true⟩
    · rw [collapseAux_cons_nonws (by simpa using hws)]
      exact ⟨fun h => absurd h hws, ih false⟩

theorem collapseAux_eq_self : ∀ (l : List Char) (b : Bool), wsOk l →
    (b = true → headNotWs l) → collapseAux b l = l := by
  intro l
  induction l with
  | nil => intro b _ _; rfl
  | cons c cs ih =>
    intro b hok hb
    obtain ⟨hcond, hcs⟩ := hok
    by_cases hws : c.isWhitespace = true
    · obtain ⟨rfl, hhead⟩ := hcond hws
      cases b with
      | true => exact absurd hws (by simpa [headNotWs] using hb rfl)
      | false =>
        rw [collapseAux_cons_ws_false hws, ih true hcs (fun _ => hhead)]
    · rw [collapseAux_cons_nonws (by simpa using hws), ih false hcs (by simp)]

theorem wsOk_dropWhile_ws {l : List Char} (h : wsOk l) :
    wsOk (l.dropWhile Char.isWhitespace) := by
  induction l with
  | nil => exact h
  | cons c cs ih =>
    by_cases hws : c.isWhitespace = true
    · rw [List.dropWhile_cons_of_pos hws]
      exact ih h.2
    · rwa [List.dropWhile_cons_of_neg (by simpa using hws)]

theorem wsOk_append_left : ∀ {x t : List Char}, wsOk (x ++ t) → wsOk x := by
  intro x
  induction x with
  | nil => intro t _; trivial
  | cons c cs ih =>
    intro t h
    obtain ⟨hcond, hrest⟩ := h
    refine ⟨fun hws => ?_, ih hrest⟩
    obtain ⟨rfl, hhead⟩ := hcond hws
    refine ⟨rfl, ?_⟩
    cases cs with
    | nil => trivial
    | cons d ds => exact hhead

theorem stripChars_decomp (l : List Char) :
    ∃ t, l.dropWhile Char.isWhitespace = stripChars l ++ t ∧
      ∀ c ∈ t, c.isWhitespace = true := by
  refine ⟨((l.dropWhile Char.isWhitespace).reverse.takeWhile Char.isWhitespace).reverse, ?_, ?_⟩
  · conv_lhs => rw [← List.reverse_reverse (l.dropWhile Char.isWhitespace)]
    conv_lhs =>
      rw [← List.takeWhile_append_dropWhile (p := Char.isWhitespace)
        (l := (l.dropWhile Char.isWhitespace).reverse)]
    rw [List.reverse_append]
    rfl
  · intro c hc
    rw [List.mem_reverse] at hc
    exact List.mem_takeWhile_imp hc

theorem headNotWs_stripChars (l : List Char) : headNotWs (stripChars l) := by
  obtain ⟨t, hdec, -⟩ := stripChars_decomp l
  cases hs : stripChars l with
  | nil => trivial
  | cons c cs =>
    rw [hs, List.cons_append] at hdec
    exact head_dropWhile_false _ _ hdec

theorem headNotWs_reverse_stripChars (l : List Char) : headNotWs (stripChars l).reverse := by
  unfold stripChars
  rw [List.reverse_reverse]
  cases hs : (l.dropWhile Char.isWhitespace).reverse.dropWhile Char.isWhitespace with
  | nil => trivial
  | cons c cs => exact head_dropWhile_false _ _ hs

theorem dropWhile_ws_eq_self {l : List Char} (h : headNotWs l) :
    l.dropWhile Char.isWhitespace = l := by
  cases l with
  | nil => rfl
  | cons c cs => exact List.dropWhile_cons_of_neg (by simpa [headNotWs] using h)

theorem stripChars_eq_self {l : List Char} (h1 : headNotWs l) (h2 : headNotWs l.reverse) :
    stripChars l = l := by
  unfold stripChars
  rw [dropWhile_ws_eq_self h1, dropWhile_ws_eq_self h2, List.reverse_reverse]

theorem wsOk_stripChars {l : List Char} (h : wsOk l) : wsOk (stripChars l) := by
  obtain ⟨t, hdec, -⟩ := stripChars_decomp l
  have := wsOk_dropWhile_ws h
  rw [hdec] at this
  exact wsOk_append_left this

theorem noConn_stripChars {l : List Char} (h : noConn l) : noConn (stripChars l) := by
  obtain ⟨t, hdec, ht⟩ := stripChars_decomp l
  have hd := noConn_dropWhile_ws h
  rw [hdec] at hd
  exact noConn_append_ws_right ht hd

theorem mem_flushRun {a : Char} {acc : List Char} (h : a ∈ flushRun acc) : a ∈ acc := by
  unfold flushRun at h
  split at h
  · cases h
  · exact h

theorem mem_removeConnAux : ∀ (l acc : List Char) (a : Char),
    a ∈ removeConnAux acc l → a ∈ acc ∨ a ∈ l := by
  intro l
  induction l with
  | nil => intro acc a h; exact Or.inl (mem_flushRun h)
  | cons c cs ih =>
    intro acc a h
    rw [removeConnAux] at h
    split at h
    · rcases ih _ a h with hacc | hcs
      · rcases List.mem_append.mp hacc with h1 | h1
        · exact Or.inl h1
        · simp only [List.mem_singleton] at h1
          exact Or.inr (by simp [h1])
      · exact Or.inr (by simp [hcs])
    · rcases List.mem_append.mp h with h1 | h1
      · exact Or.inl (mem_flushRun h1)
      · rcases List.mem_cons.mp h1 with h2 | h2
        · exact Or.inr (by simp [h2])
        · rcases ih _ a h2 with h3 | h3
          · cases h3
          · exact Or.inr (by simp [h3])

theorem mem_collapseAux : ∀ (l : List Char) (b : Bool) (a : Char),
    a ∈ collapseAux b l → a = ' ' ∨ a ∈ l := by
  intro l
  induction l with
  | nil => intro b a h; cases h
  | cons c cs ih =>
    intro b a h
    by_cases hws : c.isWhitespace = true
    · cases b with
      | true =>
        rw [collapseAux_cons_ws_true hws] at h
        rcases ih true a h with h1 | h1
        · exact Or.inl h1
        · exact Or.inr (by simp [h1])
      | false =>
        rw [collapseAux_cons_ws_false hws] at h
        rcases List.mem_cons.mp h with h1 | h1
        · exact Or.inl h1
        · rcases ih true a h1 with h2 | h2
          · exact Or.inl h2
          · exact Or.inr (by simp [h2])
    · rw [collapseAux_cons_nonws (by simpa using hws)] at h
      rcases List.mem_cons.mp h with h1 | h1
      · exact Or.inr (by simp [h1])
      · rcases ih false a h1 with h2 | h2
        · exact Or.inl h2
        · exact Or.inr (by simp [h2])

theorem mem_stripChars {a : Char} {l : List Char} (h : a ∈ stripChars l) : a ∈ l := by
  unfold stripChars at h
  rw [List.mem_reverse] at h
  have h1 := (List.dropWhile_sublist Char.isWhitespace).mem h
  rw [List.mem_reverse] at h1
  exact (List.dropWhile_sublist Char.isWhitespace).mem h1

theorem map_toLower_eq_self {l : List Char} (h : ∀ c ∈ l, c.toLower = c) :
    l.map Char.toLower = l := by
  induction l with
  | nil => rfl
  | cons c cs ih =>
    rw [List.map_cons, h c (by simp), ih (fun d hd => h d (by simp [hd]))]

/-! ## The claims -/

/-- C1: the claim says `gerar_assinatura` is total and never fails, returning
an empty-but-non-null string when a name field is absent or normalizes to
empty.  The code is wrong: `extract_first_last` evaluates `partes[0]` on the
empty token list, so an absent (`None`) or empty name raises `IndexError`
instead of producing a fingerprint; the `or ""` guard in `gerar_assinatura`
shows the intended tolerance of absent fields.  This theorem evaluates the
embedded code at the failing inputs. -/
theorem C1_gerar_assinatura_raises_on_empty_name :
    gerar_assinatura none "2000-01-01" (some "maria silva") "F" = .error ()
    ∧ gerar_assinatura (some "") "2000-01-01" (some "maria silva") "F" = .error ()
    ∧ gerar_assinatura (some "de da") "2000-01-01" (some "maria silva") "F" = .error ()
    ∧ extract_first_last "" = .error () := by
  exact ⟨rfl, rfl, rfl, rfl⟩

/-- C2: the claim says a one-token name contributes that token as both first
and last token, giving a fingerprint of six space-joined fields.  The code is
wrong: by Python operator precedence `extract_first_last` returns
`(tok, (tok, tok))` for a one-token name, and the f-string renders the nested
tuple, so the fingerprint embeds `('joao', 'joao')` instead of `joao joao`.
This theorem evaluates the embedded code at the failing input (a two-token
name behaves as claimed, for contrast). -/
theorem C2_single_token_fingerprint_malformed :
    gerar_assinatura (some "joao") "2000" (some "ana maria") "M" =
      .ok "joao ('joao', 'joao') 2000 ana maria M"
    ∧ extract_first_last "joao" = .ok ("joao", .tup (.str "joao") (.str "joao"))
    ∧ gerar_assinatura (some "joao pedro") "2000" (some "ana maria") "M" =
      .ok "joao pedro 2000 ana maria M" := by
  exact ⟨rfl, rfl, rfl⟩

/-- C3 (counterexample): on two empty fingerprints `len_max = 0` and the
code's `1 - lev_dist / len_max` is NULL under Spark SQL semantics, not the
`1.0` the claim asserts. -/
theorem C3_counterexample_lev_score_null_on_empty :
    lev_score "" "" = none ∧ lev_score "" "" ≠ some 1 := by decide

/-- C3 (amended): `edit_score = 1 - edit_distance / len_max` whenever
`len_max > 0`; when `len_max = 0` the code leaves `lev_score` NULL
(undefined) rather than defining it to `1.0` — and that case cannot arise
for a scored pair, whose fingerprints are unequal. -/
theorem C3_lev_score_defined_for_scored_pairs (s1 s2 : String) :
    (0 < len_max s1 s2 →
      lev_score s1 s2 = some (1 - (levenshtein s1 s2 : ℚ) / (len_max s1 s2)))
    ∧ (len_max s1 s2 = 0 → lev_score s1 s2 = none)
    ∧ (s1 ≠ s2 → 0 < len_max s1 s2) := by
  refine ⟨fun h => lev_score_eq h, fun h => ?_, fun h => len_max_pos_of_ne h⟩
  unfold lev_score sparkDiv
  rw [if_pos (by exact_mod_cast h)]
  rfl

theorem C3_lev_score_defined_for_scored_pairs_witness :
    lev_score "ab" "b" = some (1 - (levenshtein "ab" "b" : ℚ) / (len_max "ab" "b"))
    ∧ 0 < len_max "ab" "b" :=
  ⟨(C3_lev_score_defined_for_scored_pairs "ab" "b").1 (by decide),
   (C3_lev_score_defined_for_scored_pairs "ab" "b").2.2 (by decide)⟩

/-- C4: the classifier is a total, priority-ordered rule table; the first
matching rule wins and every well-formed pair (non-NULL score) is mapped to
exactly one of the five statuses, with a missing key short-circuiting to
`Q001` regardless of the score. -/
theorem C4_status_final_rule_table (cpf : Option String) (s : ℚ) (na nb sa sb : String) :
    (cpf = none → status_final cpf (some s) na nb sa sb = "Q001")
    ∧ (cpf ≠ none → 0.75 ≤ s → status_final cpf (some s) na nb sa sb = "OK")
    ∧ (cpf ≠ none → s < 0.60 → status_final cpf (some s) na nb sa sb = "Q002")
    ∧ (cpf ≠ none → 0.60 ≤ s → s < 0.75 → na ≠ nb → sa ≠ sb →
        status_final cpf (some s) na nb sa sb = "Q006")
    ∧ (cpf ≠ none → 0.60 ≤ s → s < 0.75 → (na = nb ∨ sa = sb) →
        status_final cpf (some s) na nb sa sb = "VALIDAR_NOMES")
    ∧ status_final cpf (some s) na nb sa sb ∈
        (["Q001", "OK", "Q002", "Q006", "VALIDAR_NOMES"] : List String) := by
  refine ⟨fun h => by simp [status_final, h], ?_, ?_, ?_, ?_, status_final_range _ _ _ _ _ _⟩
  · intro h1 h2
    obtain ⟨k, rfl⟩ := Option.ne_none_iff_exists'.mp h1
    simp [status_final, sqlGe, h2]
  · intro h1 h2
    obtain ⟨k, rfl⟩ := Option.ne_none_iff_exists'.mp h1
    have hge : ¬ (0.75 : ℚ) ≤ s := by linarith
    simp [status_final, sqlGe, sqlLt, hge, h2]
  · intro h1 h2 h3 h4 h5
    obtain ⟨k, rfl⟩ := Option.ne_none_iff_exists'.mp h1
    have hge : ¬ (0.75 : ℚ) ≤ s := by linarith
    have hlt : ¬ s < (0.60 : ℚ) := by linarith
    simp [status_final, sqlGe, sqlLt, hge, hlt, h4, h5]
  · intro h1 h2 h3 h4
    obtain ⟨k, rfl⟩ := Option.ne_none_iff_exists'.mp h1
    have hge : ¬ (0.75 : ℚ) ≤ s := by linarith
    have hlt : ¬ s < (0.60 : ℚ) := by linarith
    rcases h4 with h4 | h4 <;> simp [status_final, sqlGe, sqlLt, hge, hlt, h4]

theorem C4_status_final_rule_table_witness :
    status_final none (some 0.9) "d1" "d2" "M" "F" = "Q001"
    ∧ status_final (some "123") (some 0.65) "d1" "d2" "M" "F" = "Q006" :=
  ⟨(C4_status_final_rule_table none 0.9 "d1" "d2" "M" "F").1 rfl,
   (C4_status_final_rule_table (some "123") 0.65 "d1" "d2" "M" "F").2.2.2.1
     (by decide) (by with_unfolding_all decide) (by with_unfolding_all decide)
     (by decide) (by decide)⟩

/-- C5: the composite score is exactly `0.75 * jaccard + 0.25 * lev_score`,
and for scored pairs (unequal fingerprints, so `len_max > 0`) it lies in
`[0, 1]`. -/
theorem C5_score_final_weighted_in_unit_interval (s1 s2 : String) (h : s1 ≠ s2) :
    score_final s1 s2 =
      some (0.75 * jaccard s1 s2 + 0.25 * (1 - (levenshtein s1 s2 : ℚ) / (len_max s1 s2)))
    ∧ (∀ q, score_final s1 s2 = some q → 0 ≤ q ∧ q ≤ 1) := by
  have hm := len_max_pos_of_ne h
  have heq : score_final s1 s2 =
      some (0.75 * jaccard s1 s2 + 0.25 * (1 - (levenshtein s1 s2 : ℚ) / (len_max s1 s2))) := by
    unfold score_final
    rw [lev_score_eq hm]
    rfl
  refine ⟨heq, fun q hq => ?_⟩
  rw [heq] at hq
  obtain rfl := (Option.some.injEq _ _).mp hq
  obtain ⟨hj0, hj1⟩ := jaccard_mem s1 s2
  have hmQ : (0 : ℚ) < (len_max s1 s2 : ℚ) := by exact_mod_cast hm
  have hd0 : (0 : ℚ) ≤ (levenshtein s1 s2 : ℚ) / (len_max s1 s2 : ℚ) := by positivity
  have hd1 : (levenshtein s1 s2 : ℚ) / (len_max s1 s2 : ℚ) ≤ 1 := by
    rw [div_le_one hmQ]
    exact_mod_cast levenshtein_le_len_max s1 s2
  constructor <;> linarith

theorem C5_score_final_weighted_in_unit_interval_witness :
    score_final "a b" "a c" =
      some (0.75 * jaccard "a b" "a c" +
        0.25 * (1 - (levenshtein "a b" "a c" : ℚ) / (len_max "a b" "a c")))
    ∧ (∀ q, score_final "a b" "a c" = some q → 0 ≤ q ∧ q ≤ 1) :=
  C5_score_final_weighted_in_unit_interval "a b" "a c" (by decide)

/-- C6: the pair generator emits, for records grouped by a shared non-NULL
key, exactly the pairs with ascending ids and differing fingerprints: a
pair is in `df_joined` iff both records are in `df`, their keys are non-NULL
and equal, `a.id < b.id`, and their fingerprints differ. -/
theorem C6_df_joined_pairs_exact (df : List Registro) (a b : Registro) :
    (a, b) ∈ df_joined df ↔
      a ∈ df ∧ b ∈ df ∧ (∃ k, a.cpf = some k ∧ b.cpf = some k) ∧ a.id < b.id ∧
        a.assinatura ≠ b.assinatura :=
  mem_df_joined df a b

theorem C6_df_joined_pairs_exact_witness :
    (((⟨1, some "111", none, "d", none, "M", "s1"⟩ : Registro),
      (⟨2, some "111", none, "d", none, "M", "s2"⟩ : Registro)) ∈
        df_joined [⟨1, some "111", none, "d", none, "M", "s1"⟩,
          ⟨2, some "111", none, "d", none, "M", "s2"⟩])
    ∧ (((⟨2, some "111", none, "d", none, "M", "s2"⟩ : Registro),
      (⟨1, some "111", none, "d", none, "M", "s1"⟩ : Registro)) ∉
        df_joined [⟨1, some "111", none, "d", none, "M", "s1"⟩,
          ⟨2, some "111", none, "d", none, "M", "s2"⟩]) :=
  ⟨(C6_df_joined_pairs_exact _ _ _).mpr
      ⟨by decide, by decide, ⟨"111", rfl, rfl⟩, by decide, by decide⟩,
   fun h => by
    have := ((C6_df_joined_pairs_exact _ _ _).mp h).2.2.2.1
    exact absurd this (by decide)⟩

/-- C7: the router partitions the classified pair rows: `OK` rows (and only
they) reach the pair part of the ingestion set, `Q001`/`Q002`/`Q006` rows
(and only they) reach the diagnostic log, and `VALIDAR_NOMES` rows land in
neither. -/
theorem C7_router_partition (df : List Registro) (r : ResRow) :
    (r ∈ df_ingestao df ↔ r ∈ df_resultado df ∧ r.status_final = "OK")
    ∧ (r ∈ df_log df ↔ r ∈ df_resultado df ∧
        (r.status_final = "Q001" ∨ r.status_final = "Q002" ∨ r.status_final = "Q006"))
    ∧ (r.status_final = "VALIDAR_NOMES" → r ∉ df_ingestao df ∧ r ∉ df_log df) := by
  have hing : r ∈ df_ingestao df ↔ r ∈ df_resultado df ∧ r.status_final = "OK" := by
    unfold df_ingestao
    rw [List.mem_filter]
    simp
  have hlog : r ∈ df_log df ↔ r ∈ df_resultado df ∧
      (r.status_final = "Q001" ∨ r.status_final = "Q002" ∨ r.status_final = "Q006") := by
    unfold df_log
    rw [List.mem_filter]
    constructor
    · rintro ⟨hm, hq⟩
      refine ⟨hm, ?_⟩
      have hrange := mem_df_resultado_range df r hm
      simp only [List.mem_cons, List.not_mem_nil, or_false] at hrange
      rcases hrange with h | h | h | h | h <;> rw [h] at hq ⊢ <;> simp_all [startsWithQ]
    · rintro ⟨hm, hq⟩
      refine ⟨hm, ?_⟩
      rcases hq with h | h | h <;> rw [h] <;> decide
  refine ⟨hing, hlog, fun hv => ⟨?_, ?_⟩⟩
  · rw [hing]
    rintro ⟨-, h⟩
    rw [hv] at h
    exact absurd h (by decide)
  · rw [hlog]
    rintro ⟨-, h⟩
    rw [hv] at h
    rcases h with h | h | h <;> exact absurd h (by decide)

theorem C7_router_partition_witness :
    ((⟨1, 2, some "111", some (1/8), "Q002"⟩ : ResRow) ∈
      df_log [⟨1, some "111", none, "d", none, "M", "s1"⟩,
        ⟨2, some "111", none, "d", none, "M", "s2"⟩])
    ∧ ((⟨1, 2, some "111", some (1/8), "Q002"⟩ : ResRow) ∉
      df_ingestao [⟨1, some "111", none, "d", none, "M", "s1"⟩,
        ⟨2, some "111", none, "d", none, "M", "s2"⟩]) :=
  ⟨(C7_router_partition _ _).2.1.mpr ⟨by with_unfolding_all decide, Or.inr (Or.inl rfl)⟩,
   fun h => by
    have := ((C7_router_partition _ _).1.mp h).2
    exact absurd this (by decide)⟩

/-- C9: the claim says every unique-key record is added, unchanged and with
full payload, to the ingestion set via an anti-join over keys.  The
anti-join itself is faithful — `df_unicos` keeps exactly the records whose
key matches (with SQL equality, so NULL matches nothing) no conflicting
pair's key — but the code is wrong at the next line: `unionByName` resolves
columns by name and the pair rows (`id_a, id_b, cpf, score_final,
status_final`) and the full records (`id, cpf, nome, data_nasc, nome_mae,
sexo, assinatura`) have different column sets, so the union raises
`AnalysisException` for every input batch and the combined ingestion set is
never produced.  The spec's routing is clearly the intent and the
mismatched union a slip. -/
theorem C9_union_schema_mismatch_raises (df : List Registro) (r : Registro) :
    df_ingestao_final df = .error ()
    ∧ (r ∈ df_unicos df ↔ r ∈ df ∧
      ∀ p, p ∈ df_joined df → ¬ ∃ k, p.1.cpf = some k ∧ r.cpf = some k) := by
  constructor
  · unfold df_ingestao_final unionByName
    rw [if_neg (by decide)]
  · unfold df_unicos
    rw [List.mem_filter]
    simp only [Bool.not_eq_true']
    constructor
    · rintro ⟨hm, hany⟩
      refine ⟨hm, ?_⟩
      rintro p hp ⟨k, hpk, hrk⟩
      have hmem : ((cpfs_duplicados df).any fun kk => sqlEqOpt r.cpf kk) = true := by
        rw [List.any_eq_true]
        refine ⟨p.1.cpf, (mem_cpfs_duplicados df _).mpr ⟨p, hp, rfl⟩, ?_⟩
        rw [sqlEqOpt_iff]
        exact ⟨k, hrk, hpk⟩
      rw [hmem] at hany
      cases hany
    · rintro ⟨hm, hno⟩
      refine ⟨hm, ?_⟩
      rw [Bool.eq_false_iff]
      intro hany
      rw [List.any_eq_true] at hany
      obtain ⟨kk, hkk, heq⟩ := hany
      obtain ⟨p, hp, rfl⟩ := (mem_cpfs_duplicados df kk).mp hkk
      obtain ⟨k, hrk, hpk⟩ := (sqlEqOpt_iff _ _).mp heq
      exact hno p hp ⟨k, hpk, hrk⟩

theorem C9_union_schema_mismatch_raises_witness :
    df_ingestao_final [⟨1, some "111", none, "d", none, "M", "s1"⟩,
      ⟨2, some "111", none, "d", none, "M", "s2"⟩,
      ⟨3, some "333", none, "d", none, "F", "s3"⟩] = .error ()
    ∧ (⟨3, some "333", none, "d", none, "F", "s3"⟩ : Registro) ∈
      df_unicos [⟨1, some "111", none, "d", none, "M", "s1"⟩,
        ⟨2, some "111", none, "d", none, "M", "s2"⟩,
        ⟨3, some "333", none, "d", none, "F", "s3"⟩] :=
  ⟨(C9_union_schema_mismatch_raises _ ⟨3, some "333", none, "d", none, "F", "s3"⟩).1,
   by decide⟩

/-- C10: a NULL key never satisfies the equality join, so no pair contains a
record with a NULL `cpf`, and consequently the classifier's first rule is
dead code in the pipeline: no result row ever carries `Q001`. -/
theorem C10_null_key_no_pairs_no_missing_key (df : List Registro) :
    (∀ p, p ∈ df_joined df → p.1.cpf ≠ none ∧ p.2.cpf ≠ none)
    ∧ (∀ a b : Registro, a.cpf = none ∨ b.cpf = none → (a, b) ∉ df_joined df)
    ∧ (∀ r, r ∈ df_resultado df → r.status_final ≠ "Q001") := by
  have key : ∀ p, p ∈ df_joined df → p.1.cpf ≠ none ∧ p.2.cpf ≠ none := by
    rintro ⟨a, b⟩ hp
    obtain ⟨-, -, ⟨k, hk1, hk2⟩, -, -⟩ := (mem_df_joined df a b).mp hp
    simp [hk1, hk2]
  refine ⟨key, ?_, ?_⟩
  · rintro a b hab hmem
    obtain ⟨h1, h2⟩ := key (a, b) hmem
    rcases hab with h | h <;> simp_all
  · intro r hr
    obtain ⟨p, hp, rfl⟩ := (mem_df_resultado df r).mp hr
    obtain ⟨k, hk1, -⟩ := ((mem_df_joined df p.1 p.2).mp hp).2.2.1
    simp only [hk1]
    exact status_final_ne_Q001 _ _ _ _ _ _

theorem C10_null_key_no_pairs_no_missing_key_witness :
    ((⟨1, none, none, "d", none, "M", "s1"⟩ : Registro),
     (⟨2, none, none, "d", none, "M", "s2"⟩ : Registro)) ∉
      df_joined [⟨1, none, none, "d", none, "M", "s1"⟩,
        ⟨2, none, none, "d", none, "M", "s2"⟩] :=
  (C10_null_key_no_pairs_no_missing_key _).2.1 _ _ (Or.inl rfl)

theorem toLower_fixed_normalize (s : String) :
    ∀ c ∈ (normalize_nome s).data, c.toLower = c := by
  intro c hc
  have h1 : c ∈ collapseWs (removeConn (s.data.map Char.toLower)) := mem_stripChars hc
  rcases mem_collapseAux _ false c h1 with h2 | h2
  · rw [h2]; decide
  · rcases mem_removeConnAux _ [] c h2 with h3 | h3
    · cases h3
    · obtain ⟨d, -, rfl⟩ := List.mem_map.mp h3
      exact toLower_idem d

/-- C8: the normalizer is idempotent: applying `normalize_nome` to its own
output is a no-op, for every input string. -/
theorem C8_normalize_nome_idempotent (s : String) :
    normalize_nome (normalize_nome s) = normalize_nome s := by
  have hy : (normalize_nome s).data =
      stripChars (collapseWs (removeConn (s.data.map Char.toLower))) := rfl
  have hnc : noConn (normalize_nome s).data := by
    rw [hy]
    exact noConn_stripChars (noConn_collapseWs (noConn_removeConn _))
  have hok : wsOk (normalize_nome s).data := by
    rw [hy]
    exact wsOk_stripChars (wsOk_collapseAux _ false)
  have hh : headNotWs (normalize_nome s).data := by
    rw [hy]
    exact headNotWs_stripChars _
  have hhr : headNotWs (normalize_nome s).data.reverse := by
    rw [hy]
    exact headNotWs_reverse_stripChars _
  apply String.ext
  show stripChars (collapseWs (removeConn ((normalize_nome s).data.map Char.toLower))) =
    (normalize_nome s).data
  rw [map_toLower_eq_self (toLower_fixed_normalize s)]
  rw [removeConn_eq_self hnc]
  show stripChars (collapseAux false (normalize_nome s).data) = _
  rw [collapseAux_eq_self _ false hok (by simp)]
  exact stripChars_eq_self hh hhr

end Dedup
